import Mathlib

/-!
Verification of the BudgetApp core: a shallow embedding of the statement
parser (src/parse_statement.py) and the categorizer
(src/categorize_parsed_data.py, with the reference-updater loop of
src/app.py), together with proofs settling the frozen claims.

Modelling conventions:
* Python strings are Lean `String`s; the character-level helpers work on
  `List Char` (`String.data`).  Character classes mirror the regexes of the
  source restricted to ASCII (`\w` = alphanumeric or underscore, `\s` =
  whitespace).
* Python floats are modelled as exact rationals `ℚ`; the structural claims
  under verification do not depend on binary rounding of float arithmetic.
* `dict`s (insertion ordered) are association lists; `Counter.most_common(1)`
  is the first element of the list attaining the maximal multiplicity.
* File IO is abstracted: a file is its list of lines (parser) or an optional
  record of column names and rows (categorizer, `none` = missing file).
* `raise` is `Except.error` with a structured error value mirroring the
  information carried by the source's message strings.
-/

deriving instance DecidableEq for Except

namespace BudgetApp

/-! ### Character-level helpers (model of `str.strip`, `str.lower`, regexes) -/

/-- Model of Python `\s` / `str.strip` whitespace (ASCII). -/
def isSpaceC (c : Char) : Bool := c.isWhitespace

/-- Model of Python regex `\w` (ASCII): alphanumeric or underscore. -/
def isWordC (c : Char) : Bool := c.isAlphanum || c = '_'

/-- Model of `str.lower` on one character (ASCII case folding). -/
def toLowerC (c : Char) : Char :=
  if 65 ≤ c.toNat ∧ c.toNat ≤ 90 then Char.ofNat (c.toNat + 32) else c

/-- `str.lower` over a character list. -/
def lowerL (l : List Char) : List Char := l.map toLowerC

/-- `str.strip`: drop leading and trailing whitespace. -/
def trimL (l : List Char) : List Char :=
  (((l.dropWhile isSpaceC).reverse).dropWhile isSpaceC).reverse

/-- `re.sub(r"[^\w\s]", " ", t)`: each non-word non-space character becomes
one space. -/
def subNonWordL (l : List Char) : List Char :=
  l.map (fun c => if isWordC c || isSpaceC c then c else ' ')

/-- `re.sub(r"\s+", " ", t)`: each maximal whitespace run becomes one space. -/
def collapseL : List Char → List Char
  | [] => []
  | [c] => if isSpaceC c then [' '] else [c]
  | c :: d :: rest =>
    if isSpaceC c && isSpaceC d then collapseL (d :: rest)
    else (if isSpaceC c then ' ' else c) :: collapseL (d :: rest)

/-- `str.strip` on `String`. -/
def trimS (s : String) : String := String.mk (trimL s.data)

/-- `str.lower` on `String`. -/
def lowerS (s : String) : String := String.mk (lowerL s.data)

/-- `normalize` of src/categorize_parsed_data.py (= the copy in src/app.py):
`t = text.strip().lower()`, replace `[^\w\s]` by a space, collapse `\s+`
to one space, strip again. -/
def normalizeL (l : List Char) : List Char :=
  trimL (collapseL (subNonWordL (lowerL (trimL l))))

/-- String-level `normalize`. -/
def normalize (s : String) : String := String.mk (normalizeL s.data)

/-- Key used by the reference updater of src/app.py:
`description.lower().strip()`. -/
def lowerStripKey (s : String) : String := String.mk (trimL (lowerL s.data))

/-! ### Substring containment (Python `pat in s`) -/

/-- `pat` occurs at the start of `l`. -/
def isTokenAt : List Char → List Char → Bool
  | _, [] => true
  | [], _ :: _ => false
  | c :: cs, p :: ps => p = c && isTokenAt cs ps

/-- `pat` occurs somewhere in `l`. -/
def containsTok : List Char → List Char → Bool
  | [], pat => isTokenAt [] pat
  | c :: cs, pat => isTokenAt (c :: cs) pat || containsTok cs pat

/-- Python substring test `pat in s`. -/
def containsSubstring (s pat : String) : Bool := containsTok s.data pat.data

/-! ### Statement parser (src/parse_statement.py)

The pattern mapping (`load_patterns` output, a Python `dict` in insertion
order) is a list of `(card_name, header list)` entries; an input file is its
list of lines. -/

/-- `str.split(sep)` for a one-character separator, on character lists. -/
def splitOnC (sep : Char) : List Char → List (List Char)
  | [] => [[]]
  | c :: rest =>
    match splitOnC sep rest with
    | [] => [[]]
    | part :: parts => if c = sep then [] :: part :: parts else (c :: part) :: parts

/-- `str.split(sep)` for a one-character separator. -/
def splitChar (s : String) (sep : Char) : List String :=
  (splitOnC sep s.data).map String.mk

/-- `[col.strip() for col in line.split(',')]`. -/
def splitCommaTrim (line : String) : List String :=
  (splitChar line ',').map trimS

/-- `all(header in row for header in pattern_headers)` for one line. -/
def lineMatches (patternHeaders : List String) (line : String) : Bool :=
  patternHeaders.all (fun h => (splitCommaTrim line).contains h)

/-- Inner loop of `find_matching_pattern`: index of the first line the
pattern's headers all occur in. -/
def findHeaderLine (patternHeaders : List String) : List String → Option Nat
  | [] => none
  | line :: rest =>
    if lineMatches patternHeaders line then some 0
    else (findHeaderLine patternHeaders rest).map (· + 1)

/-- `find_matching_pattern` (src/parse_statement.py lines 19-34): patterns are
tried in mapping order (outer loop) and for each pattern the file lines are
scanned top to bottom (inner loop); the first hit returns
`(card_name, headers, line index)`. -/
def find_matching_pattern (patterns : List (String × List String))
    (fileContent : List String) : Option (String × List String × Nat) :=
  match patterns with
  | [] => none
  | (cardName, patternHeaders) :: rest =>
    match findHeaderLine patternHeaders fileContent with
    | some idx => some (cardName, patternHeaders, idx)
    | none => find_matching_pattern rest fileContent

/-! #### Dates (`parse_date`) -/

/-- Numeric field of a `strptime` pattern: all digits, length within
`[lo, hi]`. -/
def numField (s : String) (lo hi : Nat) : Option Nat :=
  if lo ≤ s.length ∧ s.length ≤ hi ∧ s.data.all (fun c => c.isDigit) then
    some (s.data.foldl (fun a c => a * 10 + (c.toNat - 48)) 0)
  else none

/-- Gregorian leap year. -/
def isLeap (y : Nat) : Bool := y % 4 = 0 && (y % 100 ≠ 0 || y % 400 = 0)

/-- Days in a month (as validated by `datetime`). -/
def daysInMonth (y m : Nat) : Nat :=
  if m = 2 then (if isLeap y then 29 else 28)
  else if m = 4 ∨ m = 6 ∨ m = 9 ∨ m = 11 then 30
  else 31

/-- `datetime` date validation (year 1-9999). -/
def validDate (y m d : Nat) : Bool :=
  1 ≤ y && y ≤ 9999 && 1 ≤ m && m ≤ 12 && 1 ≤ d && d ≤ daysInMonth y m

/-- `strptime(s, '%m/%d/%Y')` as year/month/day. -/
def fmtMDYslash (s : String) : Option (Nat × Nat × Nat) :=
  match splitChar s '/' with
  | [ms, ds, ys] =>
    match numField ms 1 2, numField ds 1 2, numField ys 4 4 with
    | some m, some d, some y => if validDate y m d then some (y, m, d) else none
    | _, _, _ => none
  | _ => none

/-- `strptime(s, '%Y-%m-%d')`. -/
def fmtYMDdash (s : String) : Option (Nat × Nat × Nat) :=
  match splitChar s '-' with
  | [ys, ms, ds] =>
    match numField ys 4 4, numField ms 1 2, numField ds 1 2 with
    | some y, some m, some d => if validDate y m d then some (y, m, d) else none
    | _, _, _ => none
  | _ => none

/-- `strptime(s, '%d-%m-%Y')`. -/
def fmtDMYdash (s : String) : Option (Nat × Nat × Nat) :=
  match splitChar s '-' with
  | [ds, ms, ys] =>
    match numField ds 1 2, numField ms 1 2, numField ys 4 4 with
    | some d, some m, some y => if validDate y m d then some (y, m, d) else none
    | _, _, _ => none
  | _ => none

/-- `strptime(s, '%m-%d-%y')`; `%y` maps 00-68 to 20xx and 69-99 to 19xx. -/
def fmtMDYdash2 (s : String) : Option (Nat × Nat × Nat) :=
  match splitChar s '-' with
  | [ms, ds, ys] =>
    match numField ms 1 2, numField ds 1 2, numField ys 2 2 with
    | some m, some d, some y2 =>
      let y := if y2 ≤ 68 then 2000 + y2 else 1900 + y2
      if validDate y m d then some (y, m, d) else none
    | _, _, _ => none
  | _ => none

/-- The fixed ordered format list of `parse_date`, first success wins. -/
def tryFormats (s : String) : Option (Nat × Nat × Nat) :=
  match fmtMDYslash s with
  | some r => some r
  | none =>
    match fmtYMDdash s with
    | some r => some r
    | none =>
      match fmtDMYdash s with
      | some r => some r
      | none => fmtMDYdash2 s

/-- Two-digit zero padding of `strftime('%m')` / `'%d'`. -/
def pad2 (n : Nat) : String := if n < 10 then ("0") ++ toString n else toString n

/-- `strftime('%Y-%m-%d')`. -/
def formatISO : Nat × Nat × Nat → String
  | (y, m, d) => toString y ++ ("-") ++ pad2 m ++ ("-") ++ pad2 d

/-- `parse_date` (src/parse_statement.py lines 36-47): try the formats in
order on the stripped string; on total failure return the original string. -/
def parse_date (dateStr : String) : String :=
  match tryFormats (trimS dateStr) with
  | some ymd => formatISO ymd
  | none => dateStr

/-! #### Amounts (`normalize_amount`) -/

/-- `re.sub(r'[^\d.-]', '', amount_str)`. -/
def cleanAmount (s : String) : List Char :=
  s.data.filter (fun c => c.isDigit || c = '.' || c = '-')

/-- Value of a digit list. -/
def digitsVal (l : List Char) : Nat :=
  l.foldl (fun a c => a * 10 + (c.toNat - 48)) 0

/-- Python `float()` on a string over the alphabet `{digits, '.', '-'}`:
an optional leading minus, then digits with at most one decimal point and at
least one digit overall. -/
def parseFloatQ (l : List Char) : Option ℚ :=
  let signed := l.head? = some '-'
  let body := if signed then l.tail else l
  if body.any (fun c => c = '-') then none
  else
    let intPart := body.takeWhile (fun c => c ≠ '.')
    let rest := body.dropWhile (fun c => c ≠ '.')
    if intPart.all (fun c => c.isDigit) then
      match rest with
      | [] =>
        if intPart ≠ [] then
          some ((if signed then -1 else 1) * (digitsVal intPart : ℚ))
        else none
      | _ :: fracPart =>
        if fracPart.all (fun c => c.isDigit) ∧ ¬ fracPart.any (fun c => c = '.') ∧
            (intPart ≠ [] ∨ fracPart ≠ []) then
          some ((if signed then -1 else 1) *
            ((digitsVal intPart : ℚ) + (digitsVal fracPart : ℚ) / 10 ^ fracPart.length))
        else none
    else none

/-- `normalize_amount` (src/parse_statement.py lines 49-60): strip every
character that is not a digit, dot or minus, convert to a number, and fall
back to `0.0` on failure. -/
def normalize_amount (amountStr : String) : ℚ :=
  match parseFloatQ (cleanAmount amountStr) with
  | some q => q
  | none => 0

/-! #### Column resolution and row materialization -/

/-- The amount strategy selected by card name
(src/parse_statement.py lines 94-114). -/
inductive AmountStrategy where
  | dc (debitCol creditCol : Nat)
  | single (col : Nat)
deriving DecidableEq

/-- The resolved column indices for a detected layout. -/
structure ResolvedCols where
  dateCol : Nat
  descCol : Nat
  strat : AmountStrategy
deriving DecidableEq

/-- Errors raised by `parse_statement_file`, mirroring its message strings. -/
inductive ParseError where
  | noPattern
  | missingDebitCredit (card : String)
  | missingAmount (card : String)
  | missingDateDesc (card : String)
deriving DecidableEq

/-- Column resolution (src/parse_statement.py lines 87-117): date column is
the first header containing "date", description the first containing
"description" or "payee"; the amount strategy is selected by exact
case-insensitive card name, and the amount-column errors are raised before
the date/description error, as in the source. -/
def resolveColumns (cardName : String) (headers : List String) :
    Except ParseError ResolvedCols :=
  let dateCol? := headers.findIdx? (fun h => containsSubstring (lowerS h) ("date"))
  let descCol? := headers.findIdx? (fun h =>
    containsSubstring (lowerS h) ("description") || containsSubstring (lowerS h) ("payee"))
  let strat? : Except ParseError AmountStrategy :=
    if lowerS cardName = "pnc credit" then
      match headers.findIdx? (fun h => lowerS h = "withdrawals"),
            headers.findIdx? (fun h => lowerS h = "deposits") with
      | some dcol, some ccol => .ok (.dc dcol ccol)
      | _, _ => .error (.missingDebitCredit cardName)
    else if lowerS cardName = "citi credit" then
      match headers.findIdx? (fun h => lowerS h = "debit"),
            headers.findIdx? (fun h => lowerS h = "credit") with
      | some dcol, some ccol => .ok (.dc dcol ccol)
      | _, _ => .error (.missingDebitCredit cardName)
    else
      match headers.findIdx? (fun h => lowerS h = "amount") with
      | some acol => .ok (.single acol)
      | none => .error (.missingAmount cardName)
  match strat? with
  | .error e => .error e
  | .ok strat =>
    match dateCol?, descCol? with
    | some dcol, some pcol => .ok ⟨dcol, pcol, strat⟩
    | _, _ => .error (.missingDateDesc cardName)

/-- One normalized output row. -/
structure TransactionRecord where
  date : String
  description : String
  amount : ℚ
  card : String
deriving DecidableEq

/-- `normalize_amount(row[col]) if len(row) > col and row[col] else 0.0`. -/
def amtField (row : List String) (col : Nat) : ℚ :=
  match row.get? col with
  | some v => if v ≠ "" then normalize_amount v else 0
  | none => 0

/-- The amount of one data row (src/parse_statement.py lines 136-145):
debit minus credit for split layouts, the single column's value otherwise. -/
def rowAmount (strat : AmountStrategy) (row : List String) : ℚ :=
  match strat with
  | .dc dcol ccol => amtField row dcol - amtField row ccol
  | .single acol => amtField row acol

/-- One iteration of the data-row loop (src/parse_statement.py lines
126-152): skip short or all-blank lines, require a present non-empty date
field, and emit a record only when date, description and amount are all
"truthy" (`amount != 0.0`). -/
def materializeLine (headerCount : Nat) (cols : ResolvedCols) (cardName : String)
    (line : String) : Option TransactionRecord :=
  if (splitCommaTrim line).length ≥ headerCount ∧
      (splitCommaTrim line).any (fun v => v ≠ "") then
    match (splitCommaTrim line).get? cols.dateCol with
    | some dv =>
      if dv ≠ "" then
        if parse_date dv ≠ "" ∧
            ((splitCommaTrim line).get? cols.descCol).getD "" ≠ "" ∧
            rowAmount cols.strat (splitCommaTrim line) ≠ 0 then
          some ⟨parse_date dv, ((splitCommaTrim line).get? cols.descCol).getD "",
            rowAmount cols.strat (splitCommaTrim line), cardName⟩
        else none
      else none
    | none => none
  else none

/-- Descending insertion by date string (model of
`df.sort_values('date', ascending=False)`). -/
def insertByDateDesc (r : TransactionRecord) :
    List TransactionRecord → List TransactionRecord
  | [] => [r]
  | x :: xs => if x.date < r.date then r :: x :: xs else x :: insertByDateDesc r xs

/-- Sort the materialized records by date, descending. -/
def sortByDateDesc (l : List TransactionRecord) : List TransactionRecord :=
  l.foldr insertByDateDesc []

/-- `parse_statement_file` (src/parse_statement.py lines 62-165) over a file
given as its lines: detect the layout, raise "No matching pattern found" when
detection fails or returns a falsy card name or header list
(`if not card_name or not headers`), resolve columns, materialize the lines
after the header line, and sort by date descending. -/
def parse_statement_file (patterns : List (String × List String))
    (fileContent : List String) : Except ParseError (List TransactionRecord) :=
  match find_matching_pattern patterns fileContent with
  | none => .error .noPattern
  | some (cardName, headers, startIdx) =>
    if cardName = "" ∨ headers = [] then .error .noPattern
    else
      match resolveColumns cardName headers with
      | .error e => .error e
      | .ok cols =>
        .ok (sortByDateDesc ((fileContent.drop (startIdx + 1)).filterMap
          (materializeLine headers.length cols cardName)))

/-! ### Categorizer (src/categorize_parsed_data.py)

A reference entry carries a description and optional category/subcategory
(`None`/NaN modelled as `none`; pandas' `pd.notna` both-present check is the
`validPair` pattern match). -/

/-- One row of the reference table. -/
structure RefRow where
  description : String
  category : Option String
  subcategory : Option String
deriving DecidableEq

/-- The `(str(cat), str(sub))` pair of a row when both are present
(`pd.notna(cat) and pd.notna(sub)`), else `none`. -/
def validPair (r : RefRow) : Option (String × String) :=
  match r.category, r.subcategory with
  | some c, some s => some (c, s)
  | _, _ => none

/-- First element of the list attaining the maximal value of `f`; this is the
element `Counter(l).most_common(1)[0]` reports, since `Counter` iterates keys
in first-insertion order and `most_common` sorts stably by count. -/
def maxByFirst (f : α → Nat) : List α → Option α
  | [] => none
  | x :: xs =>
    match maxByFirst f xs with
    | none => some x
    | some y => if f y > f x then some y else some x

/-- `most_common_pair` (src/categorize_parsed_data.py lines 21-26):
`(None, None)` on an empty list, else the most frequent pair with ties
broken by first encounter. -/
def most_common_pair (pairs : List (String × String)) :
    Option String × Option String :=
  match maxByFirst (fun p => pairs.count p) pairs with
  | none => (none, none)
  | some p => (some p.1, some p.2)

/-- Keys in order of first occurrence (insertion order of a Python dict). -/
def firstOccAux [DecidableEq α] (seen : List α) : List α → List α
  | [] => []
  | x :: xs => if x ∈ seen then firstOccAux seen xs else x :: firstOccAux (x :: seen) xs

/-- Deduplicate keeping the first occurrence of each element. -/
def firstOccKeys [DecidableEq α] (l : List α) : List α := firstOccAux [] l

/-- The list `pairs_by_desc[key]`: the valid pairs of the rows whose
normalized description is `key`, in row order. -/
def groupPairs (refs : List RefRow) (key : String) : List (String × String) :=
  refs.filterMap (fun r => if normalize r.description = key then validPair r else none)

/-- `build_description_lookup` (src/categorize_parsed_data.py lines 28-39):
the keys are the normalized descriptions of rows with a valid pair, in first
occurrence order, each mapped to `most_common_pair` of its group. -/
def build_description_lookup (refs : List RefRow) :
    List (String × (Option String × Option String)) :=
  (firstOccKeys (refs.filterMap
      (fun r => (validPair r).map (fun _ => normalize r.description)))).map
    (fun key => (key, most_common_pair (groupPairs refs key)))

/-- Python `dict` lookup on an association list. -/
def lookupGet (lookup : List (String × α)) (key : String) : Option α :=
  (lookup.find? (fun e => e.1 = key)).map (fun e => e.2)

/-- The scan of `rapidfuzz.process.extractOne`: keep the best score seen so
far, a later candidate replacing the incumbent only on a strictly greater
score. -/
def extractBest (sim : String → String → ℚ) (query : String) :
    List String → (String × ℚ) → (String × ℚ)
  | [], best => best
  | c :: rest, best =>
    if sim query c > best.2 then extractBest sim query rest (c, sim query c)
    else extractBest sim query rest best

/-- `fuzzy_best_match` (src/categorize_parsed_data.py lines 41-48): `(None,
0.0)` on an empty choice list, else the choice with the maximal similarity
to the query (first one on ties) and its score.  The token-set-ratio scorer
is external (rapidfuzz), so it is a parameter `sim`. -/
def fuzzy_best_match (sim : String → String → ℚ) (query : String)
    (choices : List String) : Option String × ℚ :=
  match choices with
  | [] => (none, 0)
  | c :: rest =>
    (some (extractBest sim query rest (c, sim query c)).1,
      (extractBest sim query rest (c, sim query c)).2)

/-- Python 3 `round(q)`: nearest integer, ties to the even integer. -/
def pyRound (q : ℚ) : ℤ :=
  let f := ⌊q⌋
  if q - f < mkRat 1 2 then f
  else if q - f > mkRat 1 2 then f + 1
  else if 2 ∣ f then f else f + 1

/-- Python `round(q, 1)`: one decimal place, banker's rounding. -/
def round1 (q : ℚ) : ℚ := mkRat (pyRound (q * 10)) 10

/-- One output row of the categorizer (the `suggestion` dict of
src/categorize_parsed_data.py lines 96-105). -/
structure Suggestion where
  date : String
  description : String
  amount : ℚ
  card : String
  category : Option String
  subcategory : Option String
  matchType : String
  matchScore : ℚ
deriving DecidableEq

/-- The branch structure of the per-row matcher
(src/categorize_parsed_data.py lines 83-94): exact lookup of the normalized
description first (guarded by `all(v is not None ...)`), then the fuzzy stage
guarded by `best is not None and score >= threshold and all(v is not None
...)`, else no match.  Returns (category, subcategory, match_type,
match_score before rounding). -/
def matchOutcome (lookup : List (String × (Option String × Option String)))
    (sim : String → String → ℚ) (threshold : ℚ) (nd : String) :
    Option String × Option String × String × ℚ :=
  match lookupGet lookup nd with
  | some (some c, some s) => (some c, some s, "exact", 100)
  | _ =>
    match fuzzy_best_match sim nd (lookup.map (fun e => e.1)) with
    | (some best, score) =>
      if score ≥ threshold then
        match lookupGet lookup best with
        | some (some c, some s) => (some c, some s, "fuzzy", score)
        | _ => (none, none, "none", 0)
      else (none, none, "none", 0)
    | (none, _) => (none, none, "none", 0)

/-- The per-row matcher (src/categorize_parsed_data.py lines 76-106, the same
logic as src/app.py lines 129-166 with its threshold): the suggestion row
copies the transaction fields and stores `round(match_score, 1)`. -/
def categorizeRow (lookup : List (String × (Option String × Option String)))
    (sim : String → String → ℚ) (threshold : ℚ) (row : TransactionRecord) :
    Suggestion :=
  { date := row.date, description := row.description, amount := row.amount,
    card := row.card,
    category := (matchOutcome lookup sim threshold (normalize row.description)).1,
    subcategory :=
      (matchOutcome lookup sim threshold (normalize row.description)).2.1,
    matchType :=
      (matchOutcome lookup sim threshold (normalize row.description)).2.2.1,
    matchScore :=
      round1 (matchOutcome lookup sim threshold (normalize row.description)).2.2.2 }

/-- Errors of `categorize_parsed_data`, mirroring its returned messages. -/
inductive CatError where
  | refNotFound
  | missingColumns (missing : List String)
deriving DecidableEq

/-- A reference CSV file: its column names and its rows.  `none` at the call
site models a missing file (`os.path.exists` false). -/
structure RefFileData where
  columns : List String
  rows : List RefRow
deriving DecidableEq

/-- `standardize_cols` (src/categorize_parsed_data.py lines 8-11) on the
column names: `c.strip().lower()`. -/
def standardize_cols (cols : List String) : List String :=
  cols.map (fun c => String.mk (lowerL (trimL c.data)))

/-- `required_ref = {"description", "category", "subcategory"}`. -/
def requiredRefCols : List String := ["description", "category", "subcategory"]

/-- `categorize_parsed_data` (src/categorize_parsed_data.py lines 51-109):
error when the reference file is missing; error naming the missing required
columns after case-insensitive column standardization; otherwise build the
lookup and categorize every source row with threshold `50` (the literal at
this call site; src/app.py lines 129-166 runs the same matcher with `90`). -/
def categorize_parsed_data (src : List TransactionRecord)
    (sim : String → String → ℚ) (referenceFile : Option RefFileData) :
    Except CatError (List Suggestion) :=
  match referenceFile with
  | none => .error .refNotFound
  | some rf =>
    if requiredRefCols.filter
        (fun col => ¬ (standardize_cols rf.columns).contains col) ≠ [] then
      .error (.missingColumns (requiredRefCols.filter
        (fun col => ¬ (standardize_cols rf.columns).contains col)))
    else .ok (src.map (categorizeRow (build_description_lookup rf.rows) sim 50))

/-- `update_references_file` (src/app.py lines 174-207), the references.csv
part: find the first row whose `description.lower().strip()` equals that of
the new description; update its category/subcategory in place if found, else
append a new row at the end. -/
def update_references_file (d c s : String) : List RefRow → List RefRow
  | [] => [⟨d, some c, some s⟩]
  | r :: rest =>
    if lowerStripKey r.description = lowerStripKey d then
      { r with category := some c, subcategory := some s } :: rest
    else r :: update_references_file d c s rest

/-- Index of the first occurrence of `x` (length of the list when absent):
the "first-encountered" order used to state tie-breaking. -/
def firstIdx [DecidableEq α] (x : α) : List α → Nat
  | [] => 0
  | y :: ys => if x = y then 0 else firstIdx x ys + 1

/-! ## Theorems

### Character-level lemmas for the normalizer -/

theorem toLowerC_idem (c : Char) : toLowerC (toLowerC c) = toLowerC c := by
  by_cases h : 65 ≤ c.toNat ∧ c.toNat ≤ 90
  · have e : toLowerC c = Char.ofNat (c.toNat + 32) := by
      unfold toLowerC; exact if_pos h
    rw [e]
    obtain ⟨h1, h2⟩ := h
    obtain ⟨n, hn⟩ : ∃ n, c.toNat = n := ⟨_, rfl⟩
    rw [hn] at h1 h2 ⊢
    interval_cases n <;> decide
  · have e : toLowerC c = c := by unfold toLowerC; exact if_neg h
    rw [e, e]

theorem map_fix {α : Type} {f : α → α} :
    ∀ {l : List α}, (∀ c ∈ l, f c = c) → l.map f = l := by
  intro l
  induction l with
  | nil => intro _; rfl
  | cons a as ih =>
    intro h
    simp only [List.map_cons]
    rw [h a (List.mem_cons_self a as), ih (fun c hc => h c (List.mem_cons_of_mem _ hc))]

theorem mem_of_mem_dropWhile {p : Char → Bool} {c : Char} :
    ∀ {l : List Char}, c ∈ l.dropWhile p → c ∈ l := by
  intro l
  induction l with
  | nil => intro h; simpa using h
  | cons a as ih =>
    intro h
    by_cases hp : p a
    · rw [List.dropWhile_cons, if_pos hp] at h
      exact List.mem_cons_of_mem _ (ih h)
    · rw [List.dropWhile_cons, if_neg hp] at h
      exact h

theorem mem_trimL {c : Char} {l : List Char} (h : c ∈ trimL l) : c ∈ l := by
  unfold trimL at h
  have h1 := mem_of_mem_dropWhile (List.mem_reverse.mp h)
  exact mem_of_mem_dropWhile (List.mem_reverse.mp h1)

theorem mem_collapseL {c : Char} :
    ∀ {l : List Char}, c ∈ collapseL l → c ∈ l ∨ c = ' ' := by
  intro l
  induction l with
  | nil => intro h; simp [collapseL] at h
  | cons a as ih =>
    intro h
    cases as with
    | nil =>
      simp only [collapseL] at h
      by_cases hs : isSpaceC a
      · rw [if_pos hs] at h; right; simpa using h
      · rw [if_neg hs] at h; left; simpa using h
    | cons d rest =>
      simp only [collapseL] at h
      by_cases hs : (isSpaceC a && isSpaceC d) = true
      · rw [if_pos hs] at h
        rcases ih h with h' | h'
        · exact Or.inl (List.mem_cons_of_mem _ h')
        · exact Or.inr h'
      · rw [if_neg hs] at h
        rcases List.mem_cons.mp h with h' | h'
        · by_cases ha : isSpaceC a
          · rw [h', if_pos ha]; exact Or.inr rfl
          · rw [h', if_neg ha]; exact Or.inl (List.mem_cons_self _ _)
        · rcases ih h' with h'' | h''
          · exact Or.inl (List.mem_cons_of_mem _ h'')
          · exact Or.inr h''

theorem spaceOnly_collapseL :
    ∀ (l : List Char), ∀ c ∈ collapseL l, isSpaceC c → c = ' ' := by
  intro l
  induction l with
  | nil => intro c hc; simp [collapseL] at hc
  | cons a as ih =>
    cases as with
    | nil =>
      intro c hc hsp
      simp only [collapseL] at hc
      by_cases hs : isSpaceC a
      · rw [if_pos hs] at hc; simpa using hc
      · rw [if_neg hs] at hc
        have : c = a := by simpa using hc
        rw [this] at hsp; exact absurd hsp hs
    | cons d rest =>
      intro c hc hsp
      simp only [collapseL] at hc
      by_cases hs : (isSpaceC a && isSpaceC d) = true
      · rw [if_pos hs] at hc; exact ih c hc hsp
      · rw [if_neg hs] at hc
        rcases List.mem_cons.mp hc with h' | h'
        · by_cases ha : isSpaceC a
          · rw [h', if_pos ha]
          · rw [h', if_neg ha] at hsp; exact absurd hsp ha
        · exact ih c h' hsp

theorem head_collapseL (d : Char) :
    ∀ (rest : List Char),
      (collapseL (d :: rest)).head? = some (if isSpaceC d then ' ' else d) := by
  intro rest
  induction rest generalizing d with
  | nil =>
    simp only [collapseL]
    by_cases hs : isSpaceC d
    · rw [if_pos hs, if_pos hs]; rfl
    · rw [if_neg hs, if_neg hs]; rfl
  | cons e r ih =>
    simp only [collapseL]
    by_cases hs : (isSpaceC d && isSpaceC e) = true
    · rw [if_pos hs]
      have hd := (Bool.and_eq_true _ _).mp hs
      rw [ih e, if_pos hd.2, if_pos hd.1]
    · rw [if_neg hs, List.head?_cons]

theorem chain_collapseL :
    ∀ (l : List Char),
      (collapseL l).Chain' (fun a b => ¬(isSpaceC a = true ∧ isSpaceC b = true)) := by
  intro l
  induction l with
  | nil => simp [collapseL]
  | cons a as ih =>
    cases as with
    | nil =>
      simp only [collapseL]
      by_cases hs : isSpaceC a
      · rw [if_pos hs]; exact List.chain'_singleton _
      · rw [if_neg hs]; exact List.chain'_singleton _
    | cons d rest =>
      simp only [collapseL]
      by_cases hs : (isSpaceC a && isSpaceC d) = true
      · rw [if_pos hs]; exact ih
      · rw [if_neg hs]
        have hnand : ¬(isSpaceC a = true ∧ isSpaceC d = true) := by
          intro ⟨u, v⟩; exact hs (by rw [u, v]; rfl)
        by_cases ha : isSpaceC a
        · have hd : ¬ isSpaceC d = true := fun v => hnand ⟨ha, v⟩
          rw [if_pos ha]
          refine List.chain'_cons'.mpr ⟨?_, ih⟩
          intro y hy
          rw [head_collapseL d rest, Option.mem_some_iff] at hy
          rw [if_neg hd] at hy
          intro ⟨_, v⟩
          rw [← hy] at v
          exact hd v
        · rw [if_neg ha]
          refine List.chain'_cons'.mpr ⟨?_, ih⟩
          intro y hy
          intro ⟨u, _⟩
          exact ha u

theorem chain_dropWhile {R : Char → Char → Prop} {p : Char → Bool} :
    ∀ {l : List Char}, l.Chain' R → (l.dropWhile p).Chain' R := by
  intro l
  induction l with
  | nil => intro h; simpa using h
  | cons a as ih =>
    intro h
    by_cases hp : p a
    · rw [List.dropWhile_cons, if_pos hp]; exact ih h.tail
    · rw [List.dropWhile_cons, if_neg hp]; exact h

theorem chain_reverse_of {R : Char → Char → Prop}
    (hsymm : ∀ a b, R a b → R b a) {l : List Char} (h : l.Chain' R) :
    l.reverse.Chain' R := by
  rw [List.chain'_reverse]
  exact h.imp (fun a b hab => hsymm a b hab)

theorem chain_trimL {R : Char → Char → Prop}
    (hsymm : ∀ a b, R a b → R b a) {l : List Char} (h : l.Chain' R) :
    (trimL l).Chain' R :=
  chain_reverse_of hsymm (chain_dropWhile (chain_reverse_of hsymm (chain_dropWhile h)))

theorem collapseL_fix :
    ∀ (l : List Char), (∀ c ∈ l, isSpaceC c → c = ' ') →
      l.Chain' (fun a b => ¬(isSpaceC a = true ∧ isSpaceC b = true)) →
      collapseL l = l := by
  intro l
  induction l with
  | nil => intro _ _; rfl
  | cons a as ih =>
    intro hP hC
    cases as with
    | nil =>
      simp only [collapseL]
      by_cases hs : isSpaceC a
      · rw [if_pos hs, hP a (List.mem_cons_self _ _) hs]
      · rw [if_neg hs]
    | cons d rest =>
      simp only [collapseL]
      have hnand : ¬(isSpaceC a = true ∧ isSpaceC d = true) :=
        (List.chain'_cons.mp hC).1
      have hcond : ¬((isSpaceC a && isSpaceC d) = true) := by
        intro hb; exact hnand (Bool.and_eq_true _ _ |>.mp hb)
      rw [if_neg hcond]
      have htail : collapseL (d :: rest) = d :: rest :=
        ih (fun c hc => hP c (List.mem_cons_of_mem _ hc)) (List.chain'_cons.mp hC).2
      rw [htail]
      by_cases hs : isSpaceC a
      · rw [if_pos hs, hP a (List.mem_cons_self _ _) hs]
      · rw [if_neg hs]

theorem not_p_head_dropWhile {p : Char → Bool} :
    ∀ {l : List Char} {c : Char} {rest : List Char},
      l.dropWhile p = c :: rest → p c = false := by
  intro l
  induction l with
  | nil => intro c rest h; simp at h
  | cons a as ih =>
    intro c rest h
    by_cases hp : p a
    · rw [List.dropWhile_cons, if_pos hp] at h; exact ih h
    · rw [List.dropWhile_cons, if_neg hp] at h
      injection h with h1 _
      rw [← h1]
      exact Bool.eq_false_iff.mpr hp

theorem dropWhile_dropWhile {p : Char → Bool} (l : List Char) :
    (l.dropWhile p).dropWhile p = l.dropWhile p := by
  cases h : l.dropWhile p with
  | nil => rfl
  | cons c rest =>
    rw [List.dropWhile_cons, if_neg]
    intro hb
    rw [not_p_head_dropWhile h] at hb
    exact Bool.false_ne_true hb

theorem head_trimL_not_space {l : List Char} {c : Char} {cs : List Char}
    (h : trimL l = c :: cs) : isSpaceC c = false := by
  have hdecomp : l.dropWhile isSpaceC
      = c :: (cs ++ ((l.dropWhile isSpaceC).reverse.takeWhile isSpaceC).reverse) := by
    conv_lhs =>
      rw [← List.reverse_reverse (l.dropWhile isSpaceC),
        ← List.takeWhile_append_dropWhile (p := isSpaceC)
          (l := (l.dropWhile isSpaceC).reverse)]
    rw [List.reverse_append]
    unfold trimL at h
    rw [h, List.cons_append]
  exact not_p_head_dropWhile hdecomp

theorem trimL_idem (l : List Char) : trimL (trimL l) = trimL l := by
  have h1 : (trimL l).dropWhile isSpaceC = trimL l := by
    cases hC : trimL l with
    | nil => rfl
    | cons c cs =>
      rw [List.dropWhile_cons, head_trimL_not_space hC]
      simp
  have h2 : (trimL l).reverse = (l.dropWhile isSpaceC).reverse.dropWhile isSpaceC := by
    unfold trimL
    rw [List.reverse_reverse]
  show (((trimL l).dropWhile isSpaceC).reverse.dropWhile isSpaceC).reverse = trimL l
  rw [h1, h2, dropWhile_dropWhile, ← h2, List.reverse_reverse]

theorem low_mem_normalizeL (l : List Char) :
    ∀ c ∈ normalizeL l, toLowerC c = c := by
  intro c hc
  unfold normalizeL at hc
  have h1 := mem_trimL hc
  rcases mem_collapseL h1 with h2 | h2
  · rcases List.mem_map.mp h2 with ⟨x, hx, hfx⟩
    rcases List.mem_map.mp hx with ⟨y, _, hy⟩
    by_cases hw : (isWordC x || isSpaceC x) = true
    · rw [← hfx, if_pos hw, ← hy, toLowerC_idem]
    · rw [← hfx, if_neg hw]; decide
  · rw [h2]; decide

theorem wordOrSpace_mem_normalizeL (l : List Char) :
    ∀ c ∈ normalizeL l, (isWordC c || isSpaceC c) = true := by
  intro c hc
  unfold normalizeL at hc
  have h1 := mem_trimL hc
  rcases mem_collapseL h1 with h2 | h2
  · rcases List.mem_map.mp h2 with ⟨x, _, hfx⟩
    by_cases hw : (isWordC x || isSpaceC x) = true
    · rw [← hfx, if_pos hw]; exact hw
    · rw [← hfx, if_neg hw]; decide
  · rw [h2]; decide

theorem spaceOnly_normalizeL (l : List Char) :
    ∀ c ∈ normalizeL l, isSpaceC c → c = ' ' := by
  intro c hc hsp
  unfold normalizeL at hc
  exact spaceOnly_collapseL _ c (mem_trimL hc) hsp

theorem chain_normalizeL (l : List Char) :
    (normalizeL l).Chain' (fun a b => ¬(isSpaceC a = true ∧ isSpaceC b = true)) := by
  unfold normalizeL
  exact chain_trimL (fun a b hab ⟨u, v⟩ => hab ⟨v, u⟩) (chain_collapseL _)

theorem normalizeL_idem (l : List Char) : normalizeL (normalizeL l) = normalizeL l := by
  have htrim : trimL (normalizeL l) = normalizeL l := by
    unfold normalizeL; exact trimL_idem _
  have hlow : lowerL (normalizeL l) = normalizeL l := map_fix (low_mem_normalizeL l)
  have hsub : subNonWordL (normalizeL l) = normalizeL l :=
    map_fix (fun c hc => if_pos (wordOrSpace_mem_normalizeL l c hc))
  have hcol : collapseL (normalizeL l) = normalizeL l :=
    collapseL_fix _ (spaceOnly_normalizeL l) (chain_normalizeL l)
  show trimL (collapseL (subNonWordL (lowerL (trimL (normalizeL l))))) = normalizeL l
  rw [htrim, hlow, hsub, hcol, htrim]

/-- C9: the description normalizer is idempotent — applying `normalize` to an
already-normalized string is a no-op, for every string. -/
theorem c9_normalize_idempotent (s : String) :
    normalize (normalize s) = normalize s := by
  unfold normalize
  exact congrArg String.mk (normalizeL_idem s.data)

/-! ### Layout detection (C1, C10) -/

theorem findHeaderLine_eq_some_of {patternHeaders : List String} :
    ∀ {content : List String} {i : Nat} (hi : i < content.length),
      lineMatches patternHeaders (content.get ⟨i, hi⟩) = true →
      (∀ line ∈ content.take i, lineMatches patternHeaders line = false) →
      findHeaderLine patternHeaders content = some i := by
  intro content
  induction content with
  | nil => intro i hi; exact absurd hi (by simp)
  | cons line rest ih =>
    intro i hi hmatch hfirst
    cases i with
    | zero =>
      have hm : lineMatches patternHeaders line = true := hmatch
      unfold findHeaderLine
      rw [if_pos hm]
    | succ k =>
      have h0 : lineMatches patternHeaders line = false :=
        hfirst line (by rw [List.take_succ_cons]; exact List.mem_cons_self _ _)
      unfold findHeaderLine
      rw [if_neg (by rw [h0]; exact Bool.false_ne_true)]
      have hk : k < rest.length := Nat.lt_of_succ_lt_succ hi
      have hm : lineMatches patternHeaders (rest.get ⟨k, hk⟩) = true := hmatch
      have hf : ∀ l2 ∈ rest.take k, lineMatches patternHeaders l2 = false :=
        fun l2 hl2 =>
          hfirst l2 (by rw [List.take_succ_cons]; exact List.mem_cons_of_mem _ hl2)
      rw [ih hk hm hf]
      rfl

theorem findHeaderLine_eq_none_of {patternHeaders : List String} :
    ∀ {content : List String},
      (∀ line ∈ content, lineMatches patternHeaders line = false) →
      findHeaderLine patternHeaders content = none := by
  intro content
  induction content with
  | nil => intro _; rfl
  | cons line rest ih =>
    intro h
    have h0 : lineMatches patternHeaders line = false :=
      h line (List.mem_cons_self _ _)
    unfold findHeaderLine
    rw [if_neg (by rw [h0]; exact Bool.false_ne_true)]
    rw [ih (fun l2 hl2 => h l2 (List.mem_cons_of_mem _ hl2))]
    rfl

/-- C1 counterexample: with the pattern mapping `[A ↦ [x], B ↦ [y]]` and the
file `["y", "x"]`, line 0 is the earliest line whose tokens contain all
headers of some pattern (pattern B, and not pattern A), so the claim as
stated requires the detector to return `(B, 0)`; the code returns pattern A
with line index 1, because the outer loop is over patterns, not lines. -/
theorem c1_cex :
    lineMatches ["y"] ("y") = true ∧
    lineMatches ["x"] ("y") = false ∧
    find_matching_pattern [("A", ["x"]), ("B", ["y"])] ["y", "x"] =
      some ("A", ["x"], 1) ∧
    find_matching_pattern [("A", ["x"]), ("B", ["y"])] ["y", "x"] ≠
      some ("B", ["y"], 0) := by
  decide

/-- C1 (amended): layout detection is pattern-major.  If no pattern before
position `k` in the mapping matches any line of the file, and `i` is the
first line matched by the pattern at position `k`, the detector returns that
pattern's card name and header list together with line index `i`.  In
particular, when two patterns both match the same first qualifying line, the
pattern listed first in the mapping wins; but a pattern earlier in the
mapping wins even when a later pattern matches an earlier line. -/
theorem c1_pattern_major (patterns : List (String × List String))
    (content : List String) (k : Nat) (hk : k < patterns.length)
    (i : Nat) (hi : i < content.length)
    (hprev : ∀ p ∈ patterns.take k, ∀ line ∈ content, lineMatches p.2 line = false)
    (hmatch : lineMatches (patterns.get ⟨k, hk⟩).2 (content.get ⟨i, hi⟩) = true)
    (hfirst : ∀ line ∈ content.take i,
      lineMatches (patterns.get ⟨k, hk⟩).2 line = false) :
    find_matching_pattern patterns content =
      some ((patterns.get ⟨k, hk⟩).1, (patterns.get ⟨k, hk⟩).2, i) := by
  induction patterns generalizing k with
  | nil => exact absurd hk (by simp)
  | cons p rest ih =>
    obtain ⟨nm, hdrs⟩ := p
    cases k with
    | zero =>
      have hm : lineMatches hdrs (content.get ⟨i, hi⟩) = true := hmatch
      have hf : ∀ line ∈ content.take i, lineMatches hdrs line = false := hfirst
      unfold find_matching_pattern
      rw [findHeaderLine_eq_some_of hi hm hf]
      rfl
    | succ k' =>
      have h0 : findHeaderLine hdrs content = none :=
        findHeaderLine_eq_none_of (fun line hl =>
          hprev (nm, hdrs)
            (by rw [List.take_succ_cons]; exact List.mem_cons_self _ _) line hl)
      have hk' : k' < rest.length := Nat.lt_of_succ_lt_succ hk
      have hm : lineMatches (rest.get ⟨k', hk'⟩).2 (content.get ⟨i, hi⟩) = true :=
        hmatch
      have hf : ∀ line ∈ content.take i,
          lineMatches (rest.get ⟨k', hk'⟩).2 line = false := hfirst
      have hp : ∀ p2 ∈ rest.take k', ∀ line ∈ content,
          lineMatches p2.2 line = false :=
        fun p2 hp2 line hl =>
          hprev p2 (by rw [List.take_succ_cons]; exact List.mem_cons_of_mem _ hp2)
            line hl
      unfold find_matching_pattern
      rw [h0]
      exact ih k' hk' hp hm hf

/-- C1 amended-theorem witness: with patterns `[A ↦ [x], B ↦ [y]]` and file
`["z", "y"]`, pattern A matches no line and pattern B first matches line 1,
so detection returns `(B, [y], 1)`. -/
theorem c1_pattern_major_witness :
    find_matching_pattern [("A", ["x"]), ("B", ["y"])] ["z", "y"] =
      some ("B", ["y"], 1) :=
  c1_pattern_major [("A", ["x"]), ("B", ["y"])] ["z", "y"] 1
    (by decide) 1 (by decide) (by decide) (by decide) (by decide)

/-- C10: if the first entry of the pattern mapping has an empty header list,
detection on any non-empty file returns that entry's card name with header
line index 0, since the empty header list is vacuously contained in every
line's tokens; in particular detection never reports "no match" then. -/
theorem c10_empty_headers_first (name : String)
    (rest : List (String × List String)) (content : List String)
    (hne : content ≠ []) :
    find_matching_pattern ((name, []) :: rest) content = some (name, [], 0) := by
  cases content with
  | nil => exact absurd rfl hne
  | cons line rest' =>
    unfold find_matching_pattern findHeaderLine
    rw [if_pos (by rfl)]

/-- C10 witness: a one-line file and a mapping whose first entry has only a
card name. -/
theorem c10_empty_headers_first_witness :
    find_matching_pattern [("OnlyName", []), ("B", ["y"])] ["anything"] =
      some ("OnlyName", [], 0) :=
  c10_empty_headers_first ("OnlyName") [("B", ["y"])] ["anything"] (by decide)

/-! ### Row materialization and the parser's output (C5, C6, C8) -/

theorem mem_insertByDateDesc {a r : TransactionRecord} :
    ∀ {l : List TransactionRecord}, a ∈ insertByDateDesc r l ↔ a = r ∨ a ∈ l := by
  intro l
  induction l with
  | nil => simp [insertByDateDesc]
  | cons x xs ih =>
    simp only [insertByDateDesc]
    by_cases h : x.date < r.date
    · rw [if_pos h]
      simp [List.mem_cons]
    · rw [if_neg h]
      simp only [List.mem_cons, ih]
      tauto

theorem mem_sortByDateDesc {a : TransactionRecord} :
    ∀ {l : List TransactionRecord}, a ∈ sortByDateDesc l ↔ a ∈ l := by
  intro l
  induction l with
  | nil => simp [sortByDateDesc]
  | cons x xs ih =>
    show a ∈ insertByDateDesc x (sortByDateDesc xs) ↔ _
    rw [mem_insertByDateDesc, ih]
    simp [List.mem_cons]

theorem materializeLine_some {headerCount : Nat} {cols : ResolvedCols}
    {cardName : String} {line : String} {rec : TransactionRecord}
    (h : materializeLine headerCount cols cardName line = some rec) :
    rec.amount ≠ 0 ∧ rec.date ≠ "" ∧ rec.description ≠ "" ∧
    rec.card = cardName ∧
    rec.amount = rowAmount cols.strat (splitCommaTrim line) := by
  unfold materializeLine at h
  split at h
  · split at h
    · split at h
      · split at h
        · rename_i h3
          injection h with h'
          rw [← h']
          exact ⟨h3.2.2, h3.1, h3.2.1, rfl, rfl⟩
        · exact absurd h (by simp)
      · exact absurd h (by simp)
    · exact absurd h (by simp)
  · exact absurd h (by simp)

theorem parse_ok_inversion {patterns : List (String × List String)}
    {content : List String} {recs : List TransactionRecord}
    (h : parse_statement_file patterns content = .ok recs) :
    ∃ cardName headers startIdx cols,
      find_matching_pattern patterns content = some (cardName, headers, startIdx) ∧
      cardName ≠ "" ∧ headers ≠ [] ∧
      resolveColumns cardName headers = .ok cols ∧
      recs = sortByDateDesc ((content.drop (startIdx + 1)).filterMap
        (materializeLine headers.length cols cardName)) := by
  unfold parse_statement_file at h
  split at h
  · exact absurd h (by simp)
  · rename_i cardName headers startIdx heq
    split at h
    · exact absurd h (by simp)
    · rename_i hguard
      split at h
      · exact absurd h (by simp)
      · rename_i cols hres
        injection h with h'
        push_neg at hguard
        exact ⟨cardName, headers, startIdx, cols, heq, hguard.1, hguard.2,
          hres, h'.symm⟩

/-- C6: every record in a table returned by `parse_statement_file` has a
non-zero amount and non-empty date and description; and the success of the
call is decided by layout detection and column resolution alone, the data
rows being materialized through a filter that silently omits violating rows
instead of raising. -/
theorem c6_record_invariant (patterns : List (String × List String))
    (content : List String) :
    (∀ recs, parse_statement_file patterns content = .ok recs →
      ∀ rec ∈ recs, rec.amount ≠ 0 ∧ rec.date ≠ "" ∧ rec.description ≠ "") ∧
    (∀ cardName headers startIdx cols,
      find_matching_pattern patterns content = some (cardName, headers, startIdx) →
      cardName ≠ "" → headers ≠ [] →
      resolveColumns cardName headers = .ok cols →
      parse_statement_file patterns content =
        .ok (sortByDateDesc ((content.drop (startIdx + 1)).filterMap
          (materializeLine headers.length cols cardName)))) := by
  constructor
  · intro recs hok rec hrec
    obtain ⟨cardName, headers, startIdx, cols, _, _, _, _, hrecs⟩ :=
      parse_ok_inversion hok
    rw [hrecs] at hrec
    rw [mem_sortByDateDesc] at hrec
    obtain ⟨line, _, hmat⟩ := List.mem_filterMap.mp hrec
    obtain ⟨hamt, hdate, hdesc, _, _⟩ := materializeLine_some hmat
    exact ⟨hamt, hdate, hdesc⟩
  · intro cardName headers startIdx cols hfind hname hhdrs hres
    unfold parse_statement_file
    simp only [hfind]
    rw [if_neg (by rw [not_or]; exact ⟨hname, hhdrs⟩)]
    simp only [hres]

/-- C6 witness: a concrete PNC-layout file yields one record, and the
invariant holds for it. -/
theorem c6_record_invariant_witness :
    (⟨"2024-01-02", "Store", 5, "PNC Credit"⟩ : TransactionRecord).amount ≠ 0 ∧
    (⟨"2024-01-02", "Store", 5, "PNC Credit"⟩ : TransactionRecord).date ≠ "" ∧
    (⟨"2024-01-02", "Store", 5, "PNC Credit"⟩ : TransactionRecord).description ≠ "" :=
  (c6_record_invariant
      [("PNC Credit", ["Date", "Description", "Withdrawals", "Deposits"])]
      ["Date,Description,Withdrawals,Deposits", "01/02/2024,Store,5.00,"]).1
    [⟨"2024-01-02", "Store", 5, "PNC Credit"⟩]
    (by with_unfolding_all decide)
    ⟨"2024-01-02", "Store", 5, "PNC Credit"⟩
    (by with_unfolding_all decide)

/-- C5: under a debit/credit layout (the resolved amount strategy of the two
named cards), every materialized record's amount equals the parsed
debit-column value minus the parsed credit-column value, a blank or missing
field contributing exactly 0 (`amtField`). -/
theorem c5_debit_credit_amount (patterns : List (String × List String))
    (content : List String) (recs : List TransactionRecord)
    (cardName : String) (headers : List String) (startIdx : Nat)
    (datec descc dcol ccol : Nat)
    (hok : parse_statement_file patterns content = .ok recs)
    (hfind : find_matching_pattern patterns content =
      some (cardName, headers, startIdx))
    (hres : resolveColumns cardName headers = .ok ⟨datec, descc, .dc dcol ccol⟩) :
    ∀ rec ∈ recs, ∃ line ∈ content.drop (startIdx + 1),
      materializeLine headers.length ⟨datec, descc, .dc dcol ccol⟩ cardName line =
        some rec ∧
      rec.amount =
        amtField (splitCommaTrim line) dcol - amtField (splitCommaTrim line) ccol := by
  intro rec hrec
  obtain ⟨cardName', headers', startIdx', cols', hfind', _, _, hres', hrecs⟩ :=
    parse_ok_inversion hok
  rw [hfind] at hfind'
  have heq : cardName = cardName' ∧ headers = headers' ∧ startIdx = startIdx' := by
    have := Option.some.inj hfind'
    exact ⟨congrArg (fun t => t.1) this,
      congrArg (fun t => t.2.1) this, congrArg (fun t => t.2.2) this⟩
  obtain ⟨ec, eh, ei⟩ := heq
  rw [← ec, ← eh] at hres'
  rw [hres] at hres'
  have hcols : cols' = ⟨datec, descc, .dc dcol ccol⟩ := (Except.ok.inj hres').symm
  rw [hrecs, mem_sortByDateDesc] at hrec
  rw [← ei, ← eh, hcols] at hrec
  obtain ⟨line, hline, hmat⟩ := List.mem_filterMap.mp hrec
  refine ⟨line, hline, ?_, ?_⟩
  · rw [← ec] at hmat
    exact hmat
  · have := (materializeLine_some (by rw [← ec] at hmat; exact hmat)).2.2.2.2
    exact this

/-- C5 witness: a concrete PNC file with a blank Deposits field; the single
record's amount is the parsed debit minus 0. -/
theorem c5_debit_credit_amount_witness :
    ∃ line ∈ (["Date,Description,Withdrawals,Deposits",
        "01/02/2024,Store,5.00,"].drop 1),
      materializeLine 4 ⟨0, 1, .dc 2 3⟩ ("PNC Credit") line =
        some ⟨"2024-01-02", "Store", 5, "PNC Credit"⟩ ∧
      (⟨"2024-01-02", "Store", 5, "PNC Credit"⟩ : TransactionRecord).amount =
        amtField (splitCommaTrim line) 2 - amtField (splitCommaTrim line) 3 :=
  c5_debit_credit_amount
    [("PNC Credit", ["Date", "Description", "Withdrawals", "Deposits"])]
    ["Date,Description,Withdrawals,Deposits", "01/02/2024,Store,5.00,"]
    [⟨"2024-01-02", "Store", 5, "PNC Credit"⟩]
    ("PNC Credit") ["Date", "Description", "Withdrawals", "Deposits"] 0
    0 1 2 3
    (by with_unfolding_all decide) (by decide) (by decide)
    ⟨"2024-01-02", "Store", 5, "PNC Credit"⟩
    (by with_unfolding_all decide)

/-- C8 counterexample: with the single pattern mapping entry whose card name
is the empty string and headers `[Date, Description, Amount]`, and a file
whose line 0 is exactly that header line, a pattern does match and the date,
description and amount columns are all locatable — yet `parse_statement_file`
raises "No matching pattern found", because of the truthiness test
`if not card_name or not headers`.  So the claimed "exactly when" fails. -/
theorem c8_cex :
    find_matching_pattern [("", ["Date", "Description", "Amount"])]
        ["Date,Description,Amount"] =
      some ("", ["Date", "Description", "Amount"], 0) ∧
    resolveColumns ("") ["Date", "Description", "Amount"] =
      .ok ⟨0, 1, .single 2⟩ ∧
    parse_statement_file [("", ["Date", "Description", "Amount"])]
        ["Date,Description,Amount"] = .error .noPattern := by
  decide

/-- C8 (amended): `parse_statement_file` raises exactly when no pattern
matches any line, or the matched card name or header list is empty (the
falsy-value test), or column resolution fails (date, description, or the
required amount column(s) for the detected layout cannot be located).
Per-row degradations never raise: a date matching none of the formats keeps
the original raw string, and an unconvertible amount is treated as 0. -/
theorem c8_error_conditions (patterns : List (String × List String))
    (content : List String) :
    ((∃ e, parse_statement_file patterns content = .error e) ↔
      (find_matching_pattern patterns content = none ∨
        ∃ cardName headers startIdx,
          find_matching_pattern patterns content =
            some (cardName, headers, startIdx) ∧
          (cardName = "" ∨ headers = [] ∨
            ∃ e2, resolveColumns cardName headers = .error e2))) ∧
    (∀ s, tryFormats (trimS s) = none → parse_date s = s) ∧
    (∀ s, parseFloatQ (cleanAmount s) = none → normalize_amount s = 0) := by
  refine ⟨⟨?_, ?_⟩, ?_, ?_⟩
  · rintro ⟨e, he⟩
    unfold parse_statement_file at he
    split at he
    · rename_i hnone
      exact Or.inl hnone
    · rename_i cardName headers startIdx heq
      split at he
      · rename_i hguard
        refine Or.inr ⟨cardName, headers, startIdx, heq, ?_⟩
        rcases hguard with h | h
        · exact Or.inl h
        · exact Or.inr (Or.inl h)
      · rename_i hguard
        split at he
        · rename_i e2 hres
          exact Or.inr ⟨cardName, headers, startIdx, heq,
            Or.inr (Or.inr ⟨e2, hres⟩)⟩
        · exact absurd he (by simp)
  · intro hcase
    rcases hcase with hnone | ⟨cardName, headers, startIdx, heq, hbad⟩
    · refine ⟨.noPattern, ?_⟩
      unfold parse_statement_file
      simp only [hnone]
    · unfold parse_statement_file
      rcases hbad with h | h | ⟨e2, hres⟩
      · refine ⟨.noPattern, ?_⟩
        simp only [heq]
        rw [if_pos (Or.inl h)]
      · refine ⟨.noPattern, ?_⟩
        simp only [heq]
        rw [if_pos (Or.inr h)]
      · by_cases hguard : cardName = "" ∨ headers = []
        · refine ⟨.noPattern, ?_⟩
          simp only [heq]
          rw [if_pos hguard]
        · refine ⟨e2, ?_⟩
          simp only [heq]
          rw [if_neg hguard]
          simp only [hres]
  · intro s hs
    unfold parse_date
    simp only [hs]
  · intro s hs
    unfold normalize_amount
    simp only [hs]

/-- C8 amended-theorem witness: a mapping that matches no line of an empty
file raises, and per-row degradations behave as stated on concrete inputs
(`99/99/9999` is kept verbatim as a date; `abc` becomes amount 0). -/
theorem c8_error_conditions_witness :
    (∃ e, parse_statement_file [("G", ["Date"])] [] = .error e) ∧
    parse_date ("99/99/9999") = "99/99/9999" ∧
    normalize_amount ("abc") = 0 :=
  ⟨(c8_error_conditions [("G", ["Date"])] []).1.mpr (Or.inl (by decide)),
   (c8_error_conditions [] []).2.1 ("99/99/9999") (by decide),
   (c8_error_conditions [] []).2.2 ("abc") (by decide)⟩

/-! ### The Counter model and the lookup builder (C4) -/

theorem maxByFirst_mem {α : Type} (f : α → Nat) :
    ∀ {l : List α} {x : α}, maxByFirst f l = some x → x ∈ l := by
  intro l
  induction l with
  | nil => intro x h; simp [maxByFirst] at h
  | cons a as ih =>
    intro x h
    unfold maxByFirst at h
    split at h
    · injection h with h'
      rw [← h']
      exact List.mem_cons_self _ _
    · rename_i y hm
      split at h
      · injection h with h'
        rw [← h']
        exact List.mem_cons_of_mem _ (ih hm)
      · injection h with h'
        rw [← h']
        exact List.mem_cons_self _ _

theorem maxByFirst_eq_none {α : Type} (f : α → Nat) :
    ∀ {l : List α}, maxByFirst f l = none → l = [] := by
  intro l h
  cases l with
  | nil => rfl
  | cons a as =>
    unfold maxByFirst at h
    split at h
    · exact absurd h (by simp)
    · split at h <;> exact absurd h (by simp)

theorem firstIdx_cons {α : Type} [DecidableEq α] (x a : α) (l : List α) :
    firstIdx x (a :: l) = if x = a then 0 else firstIdx x l + 1 :=
  rfl

theorem maxByFirst_first_max {α : Type} [DecidableEq α] (f : α → Nat) :
    ∀ {l : List α} {x : α}, maxByFirst f l = some x →
      x ∈ l ∧ (∀ y ∈ l, f y ≤ f x) ∧
      (∀ y ∈ l, f y = f x → firstIdx x l ≤ firstIdx y l) := by
  intro l
  induction l with
  | nil => intro x h; simp [maxByFirst] at h
  | cons a as ih =>
    intro x h
    unfold maxByFirst at h
    split at h
    · rename_i hm
      have has : as = [] := maxByFirst_eq_none f hm
      injection h with h'
      subst has
      rw [← h']
      refine ⟨List.mem_cons_self _ _, ?_, ?_⟩
      · intro y hy
        rcases List.mem_cons.mp hy with rfl | hy
        · exact le_refl _
        · simp at hy
      · intro y hy hfy
        rw [firstIdx_cons, if_pos rfl]
        exact Nat.zero_le _
    · rename_i y hm
      obtain ⟨hymem, hymax, hytie⟩ := ih hm
      split at h
      · rename_i hgt
        injection h with h'
        rw [← h']
        refine ⟨List.mem_cons_of_mem _ hymem, ?_, ?_⟩
        · intro b hb
          rcases List.mem_cons.mp hb with rfl | hb
          · exact le_of_lt hgt
          · exact hymax b hb
        · intro b hb hfb
          have hba : b ≠ a := by
            intro hba
            rw [hba] at hfb
            exact absurd hfb (Nat.ne_of_lt hgt)
          have hya : y ≠ a := by
            intro hya
            rw [hya] at hgt
            exact absurd hgt (lt_irrefl _)
          rcases List.mem_cons.mp hb with rfl | hb
          · exact absurd rfl hba
          · rw [firstIdx_cons, if_neg hya, firstIdx_cons, if_neg hba]
            exact Nat.succ_le_succ (hytie b hb hfb)
      · rename_i hgt
        injection h with h'
        rw [← h']
        have hya : f y ≤ f a := Nat.le_of_not_lt hgt
        refine ⟨List.mem_cons_self _ _, ?_, ?_⟩
        · intro b hb
          rcases List.mem_cons.mp hb with rfl | hb
          · exact le_refl _
          · exact le_trans (hymax b hb) hya
        · intro b hb hfb
          rw [firstIdx_cons, if_pos rfl]
          exact Nat.zero_le _

theorem maxByFirst_of_strict_max {α : Type} (f : α → Nat) :
    ∀ {l : List α} {x : α}, x ∈ l → (∀ y ∈ l, y ≠ x → f y < f x) →
      maxByFirst f l = some x := by
  intro l
  induction l with
  | nil => intro x h; simp at h
  | cons a as ih =>
    intro x hx hmaj
    by_cases hax : a = x
    · subst hax
      unfold maxByFirst
      split
      · rfl
      · rename_i y hm
        have hy := maxByFirst_mem f hm
        have hnot : ¬ f y > f a := by
          by_cases hya : y = a
          · rw [hya]; exact lt_irrefl _
          · exact Nat.not_lt.mpr
              (le_of_lt (hmaj y (List.mem_cons_of_mem _ hy) hya))
        rw [if_neg hnot]
    · have hxas : x ∈ as := by
        rcases List.mem_cons.mp hx with rfl | h
        · exact absurd rfl hax
        · exact h
      have hm : maxByFirst f as = some x :=
        ih hxas (fun y hy hne => hmaj y (List.mem_cons_of_mem _ hy) hne)
      unfold maxByFirst
      simp only [hm]
      rw [if_pos (hmaj a (List.mem_cons_self _ _) hax)]

theorem most_common_pair_spec {pairs : List (String × String)}
    {c s : String} (h : most_common_pair pairs = (some c, some s)) :
    (c, s) ∈ pairs ∧
    (∀ p ∈ pairs, pairs.count p ≤ pairs.count (c, s)) ∧
    (∀ p ∈ pairs, pairs.count p = pairs.count (c, s) →
      firstIdx (c, s) pairs ≤ firstIdx p pairs) := by
  unfold most_common_pair at h
  cases hm : maxByFirst (fun p => pairs.count p) pairs with
  | none =>
    rw [hm] at h
    exact absurd h (by simp)
  | some p =>
    rw [hm] at h
    have h1 : (some p.1 : Option String) = some c := congrArg (fun t => t.1) h
    have h2 : (some p.2 : Option String) = some s := congrArg (fun t => t.2) h
    have hp : p = (c, s) := by
      have := Option.some.inj h1
      have := Option.some.inj h2
      exact Prod.ext (Option.some.inj h1) (Option.some.inj h2)
    rw [hp] at hm
    exact maxByFirst_first_max _ hm

theorem most_common_pair_some {pairs : List (String × String)}
    (h : pairs ≠ []) : ∃ c s, most_common_pair pairs = (some c, some s) := by
  unfold most_common_pair
  cases hm : maxByFirst (fun p => pairs.count p) pairs with
  | none => exact absurd (maxByFirst_eq_none _ hm) h
  | some p => exact ⟨p.1, p.2, rfl⟩

theorem most_common_pair_of_majority {pairs : List (String × String)}
    {c s : String} (hin : (c, s) ∈ pairs)
    (hmaj : ∀ p ∈ pairs, p ≠ (c, s) → pairs.count p < pairs.count (c, s)) :
    most_common_pair pairs = (some c, some s) := by
  unfold most_common_pair
  rw [maxByFirst_of_strict_max _ hin hmaj]

theorem mem_firstOccAux {α : Type} [DecidableEq α] {x : α} :
    ∀ {l seen : List α}, x ∈ firstOccAux seen l ↔ (x ∈ l ∧ x ∉ seen) := by
  intro l
  induction l with
  | nil => intro seen; simp [firstOccAux]
  | cons a as ih =>
    intro seen
    unfold firstOccAux
    by_cases ha : a ∈ seen
    · rw [if_pos ha, ih]
      constructor
      · rintro ⟨hx, hs⟩
        exact ⟨List.mem_cons_of_mem _ hx, hs⟩
      · rintro ⟨hx, hs⟩
        rcases List.mem_cons.mp hx with rfl | hx
        · exact absurd ha hs
        · exact ⟨hx, hs⟩
    · rw [if_neg ha]
      constructor
      · intro hx
        rcases List.mem_cons.mp hx with rfl | hx
        · exact ⟨List.mem_cons_self _ _, ha⟩
        · have h2 := ih.mp hx
          exact ⟨List.mem_cons_of_mem _ h2.1,
            fun hs => h2.2 (List.mem_cons_of_mem _ hs)⟩
      · rintro ⟨hx, hs⟩
        rcases List.mem_cons.mp hx with rfl | hx
        · exact List.mem_cons_self _ _
        · by_cases hxa : x = a
          · rw [hxa]; exact List.mem_cons_self _ _
          · refine List.mem_cons_of_mem _ (ih.mpr ⟨hx, fun h2 => ?_⟩)
            rcases List.mem_cons.mp h2 with h3 | h3
            · exact hxa h3
            · exact hs h3

theorem mem_firstOccKeys {α : Type} [DecidableEq α] {x : α} {l : List α} :
    x ∈ firstOccKeys l ↔ x ∈ l := by
  unfold firstOccKeys
  rw [mem_firstOccAux]
  simp

theorem lookupGet_cons {α : Type} (k : String) (v : α)
    (rest : List (String × α)) (key : String) :
    lookupGet ((k, v) :: rest) key =
      if k = key then some v else lookupGet rest key := by
  unfold lookupGet
  by_cases hk : k = key
  · rw [if_pos hk, List.find?_cons_of_pos _ (by simpa using hk)]
    rfl
  · rw [if_neg hk, List.find?_cons_of_neg _ (by simpa using hk)]

theorem lookupGet_map_keys {α : Type} (g : String → α) (key : String) :
    ∀ (ks : List String),
      lookupGet (ks.map (fun k => (k, g k))) key =
        if key ∈ ks then some (g key) else none := by
  intro ks
  induction ks with
  | nil => simp [lookupGet]
  | cons k ks ih =>
    rw [List.map_cons, lookupGet_cons, ih]
    by_cases hk : k = key
    · rw [if_pos hk, if_pos (by rw [hk]; exact List.mem_cons_self _ _), hk]
    · rw [if_neg hk]
      by_cases hmem : key ∈ ks
      · rw [if_pos hmem, if_pos (List.mem_cons_of_mem _ hmem)]
      · rw [if_neg hmem, if_neg (by
          intro h2
          rcases List.mem_cons.mp h2 with h3 | h3
          · exact hk h3.symm
          · exact hmem h3)]

theorem groupPairs_ne_nil_iff (refs : List RefRow) (key : String) :
    groupPairs refs key ≠ [] ↔
      key ∈ refs.filterMap
        (fun r => (validPair r).map (fun _ => normalize r.description)) := by
  constructor
  · intro h
    obtain ⟨p, hp⟩ := List.exists_mem_of_ne_nil _ h
    obtain ⟨r, hr, hcond⟩ := List.mem_filterMap.mp hp
    by_cases hk : normalize r.description = key
    · refine List.mem_filterMap.mpr ⟨r, hr, ?_⟩
      rw [if_pos hk] at hcond
      rw [hcond]
      simp [hk]
    · rw [if_neg hk] at hcond
      exact absurd hcond (by simp)
  · intro h
    obtain ⟨r, hr, hcond⟩ := List.mem_filterMap.mp h
    cases hv : validPair r with
    | none => rw [hv] at hcond; exact absurd hcond (by simp)
    | some p =>
      rw [hv] at hcond
      have hk : normalize r.description = key := by simpa using hcond
      intro hnil
      have hmem : p ∈ groupPairs refs key :=
        List.mem_filterMap.mpr ⟨r, hr, by rw [if_pos hk, hv]⟩
      rw [hnil] at hmem
      simp at hmem

theorem lookupGet_build (refs : List RefRow) (key : String) :
    lookupGet (build_description_lookup refs) key =
      if groupPairs refs key = [] then none
      else some (most_common_pair (groupPairs refs key)) := by
  unfold build_description_lookup
  rw [lookupGet_map_keys (fun k => most_common_pair (groupPairs refs k)) key]
  by_cases hmem : key ∈ firstOccKeys (refs.filterMap
      (fun r => (validPair r).map (fun _ => normalize r.description)))
  · have hne : groupPairs refs key ≠ [] :=
      (groupPairs_ne_nil_iff refs key).mpr (mem_firstOccKeys.mp hmem)
    rw [if_pos hmem, if_neg hne]
  · rw [if_neg hmem]
    by_cases hnil : groupPairs refs key = []
    · rw [if_pos hnil]
    · exact absurd (mem_firstOccKeys.mpr
        ((groupPairs_ne_nil_iff refs key).mp hnil)) hmem

/-- C4: the lookup builder maps a normalized description to the most frequent
valid (category, subcategory) pair of its group, ties broken by the
first-encountered pair with maximal count; rows with an absent category or
subcategory are excluded from the vote (`groupPairs` filters through
`validPair`), and a key with zero valid rows is absent from the map — a
present key never carries a null pair. -/
theorem c4_lookup_majority (refs : List RefRow) (key : String) :
    (lookupGet (build_description_lookup refs) key = none ↔
      groupPairs refs key = []) ∧
    (∀ pr, lookupGet (build_description_lookup refs) key = some pr →
      ∃ c s, pr = (some c, some s) ∧
        (c, s) ∈ groupPairs refs key ∧
        (∀ p ∈ groupPairs refs key,
          (groupPairs refs key).count p ≤ (groupPairs refs key).count (c, s)) ∧
        (∀ p ∈ groupPairs refs key,
          (groupPairs refs key).count p = (groupPairs refs key).count (c, s) →
            firstIdx (c, s) (groupPairs refs key) ≤
              firstIdx p (groupPairs refs key))) := by
  constructor
  · rw [lookupGet_build]
    by_cases hnil : groupPairs refs key = []
    · rw [if_pos hnil]
      simp [hnil]
    · rw [if_neg hnil]
      simp [hnil]
  · intro pr hpr
    rw [lookupGet_build] at hpr
    by_cases hnil : groupPairs refs key = []
    · rw [if_pos hnil] at hpr
      exact absurd hpr (by simp)
    · rw [if_neg hnil] at hpr
      obtain ⟨c, s, hcs⟩ := most_common_pair_some hnil
      refine ⟨c, s, ?_, most_common_pair_spec hcs⟩
      rw [← hcs]
      exact (Option.some.inj hpr).symm

/-- C4 witness: three reference rows for the same normalized description
"coffee", two voting (Food, Dining) and one (Shopping, Misc); the winning
pair belongs to the group. -/
theorem c4_lookup_majority_witness :
    ("Food", "Dining") ∈ groupPairs
      [⟨"Coffee", some "Food", some "Dining"⟩,
       ⟨"coffee", some "Food", some "Dining"⟩,
       ⟨"COFFEE!", some "Shopping", some "Misc"⟩] ("coffee") := by
  obtain ⟨c, s, hpr, hmem, _, _⟩ :=
    (c4_lookup_majority
      [⟨"Coffee", some "Food", some "Dining"⟩,
       ⟨"coffee", some "Food", some "Dining"⟩,
       ⟨"COFFEE!", some "Shopping", some "Misc"⟩] ("coffee")).2
      (some "Food", some "Dining") (by decide)
  have h1 : ("Food" : String) = c ∧ ("Dining" : String) = s := by
    constructor
    · exact Option.some.inj (congrArg (fun t => t.1) hpr)
    · exact Option.some.inj (congrArg (fun t => t.2) hpr)
  rw [← h1.1, ← h1.2] at hmem
  exact hmem

/-! ### The matcher (C2) -/

theorem extractBest_choice (sim : String → String → ℚ) (query : String) :
    ∀ (cs : List String) (b : String × ℚ),
      ((extractBest sim query cs b).1 ∈ cs ∧
        sim query (extractBest sim query cs b).1 = (extractBest sim query cs b).2) ∨
      extractBest sim query cs b = b := by
  intro cs
  induction cs with
  | nil => intro b; exact Or.inr rfl
  | cons c rest ih =>
    intro b
    unfold extractBest
    by_cases hgt : sim query c > b.2
    · rw [if_pos hgt]
      rcases ih (c, sim query c) with ⟨h1, h2⟩ | heq
      · exact Or.inl ⟨List.mem_cons_of_mem _ h1, h2⟩
      · rw [heq]
        exact Or.inl ⟨List.mem_cons_self _ _, rfl⟩
    · rw [if_neg hgt]
      rcases ih b with ⟨h1, h2⟩ | heq
      · exact Or.inl ⟨List.mem_cons_of_mem _ h1, h2⟩
      · exact Or.inr heq

theorem extractBest_ge (sim : String → String → ℚ) (query : String) :
    ∀ (cs : List String) (b : String × ℚ),
      b.2 ≤ (extractBest sim query cs b).2 ∧
      ∀ ch ∈ cs, sim query ch ≤ (extractBest sim query cs b).2 := by
  intro cs
  induction cs with
  | nil => intro b; exact ⟨le_refl _, by simp⟩
  | cons c rest ih =>
    intro b
    unfold extractBest
    by_cases hgt : sim query c > b.2
    · rw [if_pos hgt]
      obtain ⟨h1, h2⟩ := ih (c, sim query c)
      refine ⟨le_trans (le_of_lt hgt) h1, ?_⟩
      intro ch hch
      rcases List.mem_cons.mp hch with rfl | hch
      · exact h1
      · exact h2 ch hch
    · rw [if_neg hgt]
      obtain ⟨h1, h2⟩ := ih b
      refine ⟨h1, ?_⟩
      intro ch hch
      rcases List.mem_cons.mp hch with rfl | hch
      · exact le_trans (le_of_not_lt hgt) h1
      · exact h2 ch hch

theorem fuzzy_best_match_spec {sim : String → String → ℚ} {query : String}
    {choices : List String} {best : String} {score : ℚ}
    (h : fuzzy_best_match sim query choices = (some best, score)) :
    best ∈ choices ∧ sim query best = score ∧
      ∀ ch ∈ choices, sim query ch ≤ score := by
  cases choices with
  | nil => exact absurd h (by simp [fuzzy_best_match])
  | cons c rest =>
    unfold fuzzy_best_match at h
    have hb : (extractBest sim query rest (c, sim query c)).1 = best :=
      Option.some.inj (congrArg (fun t => t.1) h)
    have hs2 : (extractBest sim query rest (c, sim query c)).2 = score :=
      congrArg (fun t => t.2) h
    obtain ⟨hge1, hge2⟩ := extractBest_ge sim query rest (c, sim query c)
    refine ⟨?_, ?_, ?_⟩
    · rcases extractBest_choice sim query rest (c, sim query c) with ⟨hm, _⟩ | heq
      · rw [← hb]
        exact List.mem_cons_of_mem _ hm
      · rw [← hb, heq]
        exact List.mem_cons_self _ _
    · rcases extractBest_choice sim query rest (c, sim query c) with ⟨_, hsim⟩ | heq
      · rw [← hb, ← hs2]
        exact hsim
      · rw [← hb, ← hs2, heq]
    · intro ch hch
      rw [← hs2]
      rcases List.mem_cons.mp hch with rfl | hch
      · exact hge1
      · exact hge2 ch hch

set_option maxRecDepth 100000 in
theorem round1_hundred : round1 (100 : ℚ) = 100 := by
  with_unfolding_all decide

set_option maxRecDepth 100000 in
theorem round1_zero : round1 (0 : ℚ) = 0 := by
  with_unfolding_all decide

theorem lookupGet_some_of_mem_keys {α : Type} {lookup : List (String × α)}
    {key : String} (h : key ∈ lookup.map (fun e => e.1)) :
    ∃ v, lookupGet lookup key = some v := by
  induction lookup with
  | nil => simp at h
  | cons e rest ih =>
    obtain ⟨k, v⟩ := e
    rw [lookupGet_cons]
    by_cases hk : k = key
    · rw [if_pos hk]
      exact ⟨v, rfl⟩
    · rw [if_neg hk]
      apply ih
      rw [List.map_cons] at h
      rcases List.mem_cons.mp h with h1 | h1
      · exact absurd h1.symm hk
      · exact h1

theorem lookupGet_build_valid {refs : List RefRow} {key : String}
    {pr : Option String × Option String}
    (h : lookupGet (build_description_lookup refs) key = some pr) :
    ∃ c s, pr = (some c, some s) := by
  rw [lookupGet_build] at h
  by_cases hnil : groupPairs refs key = []
  · rw [if_pos hnil] at h
    exact absurd h (by simp)
  · rw [if_neg hnil] at h
    obtain ⟨c, s, hcs⟩ := most_common_pair_some hnil
    refine ⟨c, s, ?_⟩
    rw [← Option.some.inj h, hcs]

theorem matchOutcome_exact {lookup : List (String × (Option String × Option String))}
    (sim : String → String → ℚ) (threshold : ℚ) {nd c s : String}
    (h : lookupGet lookup nd = some (some c, some s)) :
    matchOutcome lookup sim threshold nd = (some c, some s, "exact", 100) := by
  unfold matchOutcome
  simp only [h]

theorem matchOutcome_fuzzy {lookup : List (String × (Option String × Option String))}
    {sim : String → String → ℚ} {threshold : ℚ} {nd best c s : String} {score : ℚ}
    (hnone : lookupGet lookup nd = none)
    (hfz : fuzzy_best_match sim nd (lookup.map (fun e => e.1)) = (some best, score))
    (hthr : threshold ≤ score)
    (hbest : lookupGet lookup best = some (some c, some s)) :
    matchOutcome lookup sim threshold nd = (some c, some s, "fuzzy", score) := by
  unfold matchOutcome
  simp only [hnone, hfz]
  rw [if_pos (show score ≥ threshold from hthr)]
  simp only [hbest]

theorem matchOutcome_lowscore {lookup : List (String × (Option String × Option String))}
    {sim : String → String → ℚ} {threshold : ℚ} {nd best : String} {score : ℚ}
    (hnone : lookupGet lookup nd = none)
    (hfz : fuzzy_best_match sim nd (lookup.map (fun e => e.1)) = (some best, score))
    (hlt : score < threshold) :
    matchOutcome lookup sim threshold nd = (none, none, "none", 0) := by
  unfold matchOutcome
  simp only [hnone, hfz]
  rw [if_neg (show ¬ score ≥ threshold from not_le.mpr hlt)]

set_option maxRecDepth 1000000 in
/-- C2 counterexample: against the built lookup of the single reference row
(coffee, Food, Dining), scored by a similarity function that returns 600/7
(≈ 85.71, a value `token_set_ratio` can produce), the description "coffe"
misses the exact stage and takes the fuzzy stage at threshold 50 — but the
stored `match_score` is `round(600/7, 1) = 85.7`, not the similarity score
600/7, because the code stores `round(match_score, 1)`. -/
theorem c2_cex :
    (categorizeRow
        (build_description_lookup [⟨"coffee", some "Food", some "Dining"⟩])
        (fun _ _ => mkRat 600 7) 50 ⟨"2024-01-01", "coffe", 5, "X"⟩).matchType =
      "fuzzy" ∧
    fuzzy_best_match (fun _ _ => mkRat 600 7) (normalize ("coffe"))
        ((build_description_lookup [⟨"coffee", some "Food", some "Dining"⟩]).map
          (fun e => e.1)) = (some "coffee", mkRat 600 7) ∧
    (50 : ℚ) ≤ mkRat 600 7 ∧
    (categorizeRow
        (build_description_lookup [⟨"coffee", some "Food", some "Dining"⟩])
        (fun _ _ => mkRat 600 7) 50 ⟨"2024-01-01", "coffe", 5, "X"⟩).matchScore =
      mkRat 857 10 ∧
    (categorizeRow
        (build_description_lookup [⟨"coffee", some "Food", some "Dining"⟩])
        (fun _ _ => mkRat 600 7) 50 ⟨"2024-01-01", "coffe", 5, "X"⟩).matchScore ≠
      mkRat 600 7 := by
  with_unfolding_all decide

/-- C2 (amended): for every built lookup table, similarity function and
threshold (50 at the categorize_parsed_data call site, 90 in the app
pipeline), the matcher assigns exactly one of three outcomes in order: an
exact hit of the normalized description carries that key's pair with
match_type "exact" and match_score 100; otherwise, when the best similarity
score over the lookup keys — `fuzzy_best_match` returns the maximal score
and its first achiever — meets or exceeds the threshold, the result carries
the best candidate's pair with match_type "fuzzy" and match_score equal to
that similarity score rounded to one decimal place; otherwise category and
subcategory are absent, match_type "none" and match_score 0. -/
theorem c2_matcher_stages (refs : List RefRow) (sim : String → String → ℚ)
    (threshold : ℚ) (row : TransactionRecord)
    (lookup : List (String × (Option String × Option String)))
    (hlookup : lookup = build_description_lookup refs)
    (out : Suggestion) (hout : out = categorizeRow lookup sim threshold row) :
    (∀ pr, lookupGet lookup (normalize row.description) = some pr →
      ∃ c s, pr = (some c, some s) ∧
        out.category = some c ∧ out.subcategory = some s ∧
        out.matchType = "exact" ∧ out.matchScore = 100) ∧
    (∀ best score,
      lookupGet lookup (normalize row.description) = none →
      fuzzy_best_match sim (normalize row.description)
        (lookup.map (fun e => e.1)) = (some best, score) →
      (best ∈ lookup.map (fun e => e.1) ∧
        sim (normalize row.description) best = score ∧
        ∀ ch ∈ lookup.map (fun e => e.1),
          sim (normalize row.description) ch ≤ score) ∧
      (threshold ≤ score →
        ∃ c s, lookupGet lookup best = some (some c, some s) ∧
          out.category = some c ∧ out.subcategory = some s ∧
          out.matchType = "fuzzy" ∧ out.matchScore = round1 score) ∧
      (score < threshold →
        out.category = none ∧ out.subcategory = none ∧
        out.matchType = "none" ∧ out.matchScore = 0)) ∧
    (lookup = [] →
      out.category = none ∧ out.subcategory = none ∧
      out.matchType = "none" ∧ out.matchScore = 0) := by
  refine ⟨?_, ?_, ?_⟩
  · intro pr hpr
    obtain ⟨c, s, hcs⟩ := lookupGet_build_valid (hlookup ▸ hpr)
    refine ⟨c, s, hcs, ?_⟩
    rw [hcs] at hpr
    have hm := matchOutcome_exact sim threshold hpr
    rw [hout]
    unfold categorizeRow
    rw [hm]
    exact ⟨rfl, rfl, rfl, round1_hundred⟩
  · intro best score hnone hfz
    refine ⟨fuzzy_best_match_spec hfz, ?_, ?_⟩
    · intro hthr
      have hbmem : best ∈ lookup.map (fun e => e.1) := (fuzzy_best_match_spec hfz).1
      obtain ⟨pr, hpr⟩ := lookupGet_some_of_mem_keys hbmem
      obtain ⟨c, s, hcs⟩ := lookupGet_build_valid (hlookup ▸ hpr)
      rw [hcs] at hpr
      have hm := matchOutcome_fuzzy hnone hfz hthr hpr
      refine ⟨c, s, hpr, ?_⟩
      rw [hout]
      unfold categorizeRow
      rw [hm]
      exact ⟨rfl, rfl, rfl, rfl⟩
    · intro hlt
      have hm := matchOutcome_lowscore hnone hfz hlt
      rw [hout]
      unfold categorizeRow
      rw [hm]
      exact ⟨rfl, rfl, rfl, round1_zero⟩
  · intro hnil
    subst hnil
    rw [hout]
    unfold categorizeRow
    have hm : matchOutcome ([] : List (String × (Option String × Option String)))
        sim threshold (normalize row.description) = (none, none, "none", 0) := rfl
    rw [hm]
    exact ⟨rfl, rfl, rfl, round1_zero⟩

/-- C2 amended-theorem witness: against the built lookup of one reference row
whose normalized description is "coffee shop", a transaction described
"Coffee Shop!" hits the exact stage with score 100. -/
theorem c2_matcher_stages_witness :
    ∃ c s, ((some "Food", some "Dining") : Option String × Option String) =
        (some c, some s) ∧
      (categorizeRow
        (build_description_lookup [⟨"Coffee Shop", some "Food", some "Dining"⟩])
        (fun _ _ => 0) 50 ⟨"2024-01-02", "Coffee Shop!", 5, "G"⟩).category = some c ∧
      (categorizeRow
        (build_description_lookup [⟨"Coffee Shop", some "Food", some "Dining"⟩])
        (fun _ _ => 0) 50 ⟨"2024-01-02", "Coffee Shop!", 5, "G"⟩).subcategory = some s ∧
      (categorizeRow
        (build_description_lookup [⟨"Coffee Shop", some "Food", some "Dining"⟩])
        (fun _ _ => 0) 50 ⟨"2024-01-02", "Coffee Shop!", 5, "G"⟩).matchType = "exact" ∧
      (categorizeRow
        (build_description_lookup [⟨"Coffee Shop", some "Food", some "Dining"⟩])
        (fun _ _ => 0) 50 ⟨"2024-01-02", "Coffee Shop!", 5, "G"⟩).matchScore = 100 :=
  (c2_matcher_stages [⟨"Coffee Shop", some "Food", some "Dining"⟩]
      (fun _ _ => 0) 50 ⟨"2024-01-02", "Coffee Shop!", 5, "G"⟩
      (build_description_lookup [⟨"Coffee Shop", some "Food", some "Dining"⟩]) rfl
      (categorizeRow
        (build_description_lookup [⟨"Coffee Shop", some "Food", some "Dining"⟩])
        (fun _ _ => 0) 50 ⟨"2024-01-02", "Coffee Shop!", 5, "G"⟩) rfl).1
    (some "Food", some "Dining") (by decide)

/-! ### The reference-updater round trip (C3) -/

theorem isSpaceC_toLowerC (c : Char) : isSpaceC (toLowerC c) = isSpaceC c := by
  by_cases h : 65 ≤ c.toNat ∧ c.toNat ≤ 90
  · have e : toLowerC c = Char.ofNat (c.toNat + 32) := by
      unfold toLowerC
      exact if_pos h
    rw [e]
    obtain ⟨h1, h2⟩ := h
    have hcsp : isSpaceC c = false := by
      apply Bool.eq_false_iff.mpr
      intro htrue
      unfold isSpaceC Char.isWhitespace at htrue
      simp only [Bool.or_eq_true, decide_eq_true_eq] at htrue
      rcases htrue with ((rfl | rfl) | rfl) | rfl <;> exact absurd h1 (by decide)
    rw [hcsp]
    obtain ⟨n, hn⟩ : ∃ n, c.toNat = n := ⟨_, rfl⟩
    rw [hn] at h1 h2 ⊢
    interval_cases n <;> decide
  · have e : toLowerC c = c := by
      unfold toLowerC
      exact if_neg h
    rw [e]

theorem lowerL_trimL (l : List Char) : lowerL (trimL l) = trimL (lowerL l) := by
  have hcomp : (isSpaceC ∘ toLowerC) = isSpaceC := by
    funext c
    exact isSpaceC_toLowerC c
  have hdw : ∀ m : List Char,
      List.map toLowerC (List.dropWhile isSpaceC m) =
        List.dropWhile isSpaceC (List.map toLowerC m) := by
    intro m
    rw [List.dropWhile_map, hcomp]
  unfold trimL lowerL
  rw [List.map_reverse, hdw, List.map_reverse, hdw]

theorem normalize_eq_of_lowerStripKey_eq {a b : String}
    (h : lowerStripKey a = lowerStripKey b) : normalize a = normalize b := by
  have hdata : trimL (lowerL a.data) = trimL (lowerL b.data) :=
    congrArg String.data h
  unfold normalize normalizeL
  rw [lowerL_trimL, lowerL_trimL, hdata]

theorem update_mem (d c s : String) :
    ∀ (refs : List RefRow), ∃ r, r ∈ update_references_file d c s refs ∧
      r.category = some c ∧ r.subcategory = some s ∧
      lowerStripKey r.description = lowerStripKey d := by
  intro refs
  induction refs with
  | nil =>
    refine ⟨⟨d, some c, some s⟩, ?_, rfl, rfl, rfl⟩
    unfold update_references_file
    exact List.mem_cons_self _ _
  | cons r rest ih =>
    unfold update_references_file
    by_cases h : lowerStripKey r.description = lowerStripKey d
    · rw [if_pos h]
      exact ⟨{ r with category := some c, subcategory := some s },
        List.mem_cons_self _ _, rfl, rfl, h⟩
    · rw [if_neg h]
      obtain ⟨r2, hr2, hc, hs, hk⟩ := ih
      exact ⟨r2, List.mem_cons_of_mem _ hr2, hc, hs, hk⟩

theorem update_mem_group (refs : List RefRow) (d c s : String) :
    (c, s) ∈ groupPairs (update_references_file d c s refs) (normalize d) := by
  obtain ⟨r, hr, hc, hs, hk⟩ := update_mem d c s refs
  refine List.mem_filterMap.mpr ⟨r, hr, ?_⟩
  rw [if_pos (normalize_eq_of_lowerStripKey_eq hk)]
  unfold validPair
  rw [hc, hs]

/-- C3: after the Reference Updater upserts (d, c, s), categorizing a
transaction described d against the rebuilt lookup (any threshold: both the
50 and the 90 call sites) yields an exact match with score 100 and the pair
(c, s), provided no other reference rows of the same normalized description
out-vote (c, s) — stated as a strict-majority hypothesis on the vote counts
of the updated table's group. -/
theorem c3_roundtrip_exact (refs : List RefRow) (d c s : String)
    (sim : String → String → ℚ) (threshold : ℚ)
    (dt card : String) (amt : ℚ)
    (hmaj : ∀ p ∈ groupPairs (update_references_file d c s refs) (normalize d),
      p ≠ (c, s) →
      (groupPairs (update_references_file d c s refs) (normalize d)).count p <
        (groupPairs (update_references_file d c s refs) (normalize d)).count
          (c, s)) :
    (categorizeRow (build_description_lookup (update_references_file d c s refs))
        sim threshold ⟨dt, d, amt, card⟩).category = some c ∧
    (categorizeRow (build_description_lookup (update_references_file d c s refs))
        sim threshold ⟨dt, d, amt, card⟩).subcategory = some s ∧
    (categorizeRow (build_description_lookup (update_references_file d c s refs))
        sim threshold ⟨dt, d, amt, card⟩).matchType = "exact" ∧
    (categorizeRow (build_description_lookup (update_references_file d c s refs))
        sim threshold ⟨dt, d, amt, card⟩).matchScore = 100 := by
  have hin := update_mem_group refs d c s
  have hmc := most_common_pair_of_majority hin hmaj
  have hlk : lookupGet
      (build_description_lookup (update_references_file d c s refs))
      (normalize d) = some (some c, some s) := by
    rw [lookupGet_build,
      if_neg (List.ne_nil_of_mem hin), hmc]
  have hm := matchOutcome_exact sim threshold hlk
  unfold categorizeRow
  rw [hm]
  exact ⟨rfl, rfl, rfl, round1_hundred⟩

/-- C3 witness: updating an empty reference table with
("Coffee", "Food", "Dining") and re-categorizing a transaction described
"Coffee" yields an exact match carrying that pair. -/
theorem c3_roundtrip_exact_witness :
    (categorizeRow
        (build_description_lookup
          (update_references_file ("Coffee") ("Food") ("Dining") []))
        (fun _ _ => 0) 90 ⟨"2024-01-02", "Coffee", 5, "G"⟩).category =
      some "Food" ∧
    (categorizeRow
        (build_description_lookup
          (update_references_file ("Coffee") ("Food") ("Dining") []))
        (fun _ _ => 0) 90 ⟨"2024-01-02", "Coffee", 5, "G"⟩).subcategory =
      some "Dining" ∧
    (categorizeRow
        (build_description_lookup
          (update_references_file ("Coffee") ("Food") ("Dining") []))
        (fun _ _ => 0) 90 ⟨"2024-01-02", "Coffee", 5, "G"⟩).matchType =
      "exact" ∧
    (categorizeRow
        (build_description_lookup
          (update_references_file ("Coffee") ("Food") ("Dining") []))
        (fun _ _ => 0) 90 ⟨"2024-01-02", "Coffee", 5, "G"⟩).matchScore = 100 :=
  c3_roundtrip_exact [] ("Coffee") ("Food") ("Dining") (fun _ _ => 0) 90
    ("2024-01-02") ("G") 5
    (by
      intro p hp hne
      have hg : groupPairs
          (update_references_file ("Coffee") ("Food") ("Dining") [])
          (normalize ("Coffee")) = [("Food", "Dining")] := by decide
      rw [hg] at hp ⊢
      have hpv : p = ("Food", "Dining") := by simpa using hp
      exact absurd hpv hne)

/-! ### Reference-file errors (C7) -/

/-- C7: the categorize operation signals an error to its caller — and returns
no categorized table — exactly when the reference file is missing or, after
case-insensitive column standardization, lacks one of the required
description/category/subcategory columns; the missing-column set is named in
the error value. -/
theorem c7_reference_errors (src : List TransactionRecord)
    (sim : String → String → ℚ) :
    (categorize_parsed_data src sim none = .error .refNotFound) ∧
    (∀ rf : RefFileData,
      requiredRefCols.filter
        (fun col => ¬ (standardize_cols rf.columns).contains col) ≠ [] →
      categorize_parsed_data src sim (some rf) =
        .error (.missingColumns (requiredRefCols.filter
          (fun col => ¬ (standardize_cols rf.columns).contains col)))) ∧
    (∀ rf : RefFileData,
      requiredRefCols.filter
        (fun col => ¬ (standardize_cols rf.columns).contains col) = [] →
      categorize_parsed_data src sim (some rf) =
        .ok (src.map (categorizeRow
          (build_description_lookup rf.rows) sim 50))) ∧
    (∀ rfOpt, (∃ e, categorize_parsed_data src sim rfOpt = .error e) ↔
      (rfOpt = none ∨ ∃ rf, rfOpt = some rf ∧
        requiredRefCols.filter
          (fun col => ¬ (standardize_cols rf.columns).contains col) ≠ [])) := by
  have herr : ∀ rf : RefFileData,
      requiredRefCols.filter
        (fun col => ¬ (standardize_cols rf.columns).contains col) ≠ [] →
      categorize_parsed_data src sim (some rf) =
        .error (.missingColumns (requiredRefCols.filter
          (fun col => ¬ (standardize_cols rf.columns).contains col))) := by
    intro rf hne
    simp only [categorize_parsed_data]
    rw [if_pos hne]
  have hok : ∀ rf : RefFileData,
      requiredRefCols.filter
        (fun col => ¬ (standardize_cols rf.columns).contains col) = [] →
      categorize_parsed_data src sim (some rf) =
        .ok (src.map (categorizeRow
          (build_description_lookup rf.rows) sim 50)) := by
    intro rf hnil
    simp only [categorize_parsed_data]
    rw [if_neg (by rw [hnil]; exact fun h => h rfl)]
  refine ⟨rfl, herr, hok, ?_⟩
  intro rfOpt
  constructor
  · rintro ⟨e, he⟩
    cases rfOpt with
    | none => exact Or.inl rfl
    | some rf =>
      refine Or.inr ⟨rf, rfl, ?_⟩
      intro hnil
      rw [hok rf hnil] at he
      exact absurd he (by simp)
  · intro hcase
    rcases hcase with rfl | ⟨rf, rfl, hne⟩
    · exact ⟨.refNotFound, rfl⟩
    · exact ⟨.missingColumns _, herr rf hne⟩

/-- C7 witness: a reference file lacking (after standardization) the
subcategory column produces the error naming exactly that missing column. -/
theorem c7_reference_errors_witness :
    categorize_parsed_data [] (fun _ _ => 0)
        (some ⟨["Description", "Category", "Sub_category"], []⟩) =
      .error (.missingColumns ["subcategory"]) := by
  have h := (c7_reference_errors [] (fun _ _ => 0)).2.1
    ⟨["Description", "Category", "Sub_category"], []⟩ (by decide)
  rw [h]
  decide

end BudgetApp
